import Mathlib

/-!
# Verification of the gh-space-shooter game core

Shallow embedding of `src/gh_space_shooter/game/game_state.py`: the entity
model (starfield, explosions, enemies, bullets, ship) and the orchestrating
`GameState` with its `animate`, `shoot`, `move_to`, `is_complete` and
`can_take_action` operations.

Modelling conventions:
* Python floats that only ever hold exact decimal arithmetic are modelled as
  rationals (`ℚ`); Python ints as `ℤ` (list indices are `ℕ`, cast to `ℤ`
  where the source stores them in entity fields).
* The module `gh_space_shooter.constants` is not part of the sources
  provided; its constants (`SHIP_POSITION_Y`, `SHIP_SPEED`, `BULLET_SPEED`,
  `SHIP_SHOOT_COOLDOWN_FRAMES`) are therefore abstract parameters, collected
  in a `Consts` structure.  Modelled from the spec: the avatar sits at a
  fixed vertical row below the 7-row grid (rows 0 to 6), bullets move by a
  fixed speed per step toward the exit threshold 10 units beyond the top
  bound, and the cooldown is a fixed frame count.
* Draws of `random.uniform` (used only by the decorative starfield) are
  modelled as an explicit stream of rationals supplied to `animate`, in line
  with the spec's requirement that randomness be an injectable dependency.
* Python's `for x in lst` loop over a list that the loop body mutates is
  modelled positionally: the hidden iteration index advances by one each
  iteration, so when the body removes the current element, the element that
  slides into its slot is skipped.  Note `list.remove(obj)` removes by
  object identity, which for these loops is the element at the current
  index; the embedding erases positionally, which matches that semantics.
* A second `list.remove` of an already-removed bullet raises `ValueError` in
  Python; the embedding surfaces this as an `Except.error`.
-/

namespace GhSpaceShooter

/-- Truncation toward zero: the behaviour of Python `int()` on a float. -/
def pyInt (q : ℚ) : ℤ := if 0 ≤ q then ⌊q⌋ else ⌈q⌉

/-- Constants imported from `gh_space_shooter.constants` (module absent from
the provided sources; kept abstract, see the header comment). -/
structure Consts where
  SHIP_POSITION_Y : ℤ
  SHIP_SPEED : ℚ
  BULLET_SPEED : ℚ
  SHIP_SHOOT_COOLDOWN_FRAMES : ℤ
deriving DecidableEq

/-- One background star, `[x, y, brightness, size, speed]` in the source. -/
structure Star where
  x : ℚ
  y : ℚ
  brightness : ℚ
  size : ℕ
  speed : ℚ
deriving DecidableEq

/-- State of `Explosion`: position, size class (`small := true` for the
string `"small"`, `false` for `"large"`), base color, frame counter, and
the derived `max_frames` (6 for small, 10 for large). -/
structure Explosion where
  x : ℚ
  y : ℚ
  small : Bool
  color : ℤ × ℤ × ℤ
  frame : ℕ
  max_frames : ℕ
deriving DecidableEq

/-- Small explosion as built by `Bullet.animate`:
yellow `(255, 223, 0)`, six frames. -/
def Explosion.mkSmall (x y : ℚ) : Explosion :=
  { x := x, y := y, small := true, color := (255, 223, 0), frame := 0, max_frames := 6 }

/-- Large explosion as built by `Enemy.take_damage`:
green `(57, 211, 83)`, ten frames. -/
def Explosion.mkLarge (x y : ℚ) : Explosion :=
  { x := x, y := y, small := false, color := (57, 211, 83), frame := 0, max_frames := 10 }

/-- State of `Enemy`: grid position and health. -/
structure Enemy where
  x : ℤ
  y : ℤ
  health : ℤ
deriving DecidableEq

/-- State of `Bullet`: firing column and continuous vertical position. -/
structure Bullet where
  x : ℤ
  y : ℚ
deriving DecidableEq

/-- State of `Ship`: continuous position, target column, cooldown. -/
structure Ship where
  x : ℚ
  target_x : ℚ
  shoot_cooldown : ℤ
deriving DecidableEq

/-- Collections owned by `GameState`  (the `game_state` back-references of
the Python entities are represented by operating on this record). -/
structure GameState where
  starfield : List Star
  ship : Ship
  enemies : List Enemy
  bullets : List Bullet
  explosions : List Explosion
deriving DecidableEq

/-! ## Entity operations -/

/-- Embeds `Enemy.take_damage` acting on the owning state's collections,
with the damaged enemy identified by its index `i` in the enemy list
(Python calls it on the object returned by `Bullet._check_collision`, and
`list.remove` by identity erases exactly that index).  Health is
decremented; at `health <= 0` a large explosion is appended and the enemy
is erased. -/
def enemyTakeDamage (enemies : List Enemy) (explosions : List Explosion) (i : ℕ) :
    List Enemy × List Explosion :=
  match enemies[i]? with
  | none => (enemies, explosions)
  | some e =>
    if e.health - 1 ≤ 0 then
      (enemies.eraseIdx i, explosions ++ [Explosion.mkLarge (e.x : ℚ) (e.y : ℚ)])
    else
      (enemies.set i { e with health := e.health - 1 }, explosions)

/-- Embeds `Bullet._check_collision`: index of the first enemy (in
collection order) with `enemy.x == self.x and enemy.y >= self.y`. -/
def findHitIdx (b : Bullet) : List Enemy → Option ℕ
  | [] => none
  | e :: rest =>
    if e.x = b.x ∧ b.y ≤ (e.y : ℚ) then some 0
    else (findHitIdx b rest).map (· + 1)

/-- Message of the `ValueError` raised by `list.remove` when the element is
absent. -/
def valueErrorMsg : String := "ValueError: list.remove(x): x not in list"

/-- Embeds `Bullet.animate`: move up by `BULLET_SPEED`, then the hit branch
(small explosion, `take_damage`, self-removal), then the off-screen branch
testing `self.y < -10`.  The two branches are separate `if` statements in
the source; when both fire, the second `bullets.remove(self)` raises
`ValueError`, modelled as `Except.error`.  Returns the surviving bullet
(if any) and the updated enemy and explosion collections. -/
def bulletAnimate (C : Consts) (b : Bullet) (enemies : List Enemy)
    (explosions : List Explosion) :
    Except String (Option Bullet × List Enemy × List Explosion) :=
  let b' : Bullet := { b with y := b.y - C.BULLET_SPEED }
  match findHitIdx b' enemies with
  | some i =>
    let r := enemyTakeDamage enemies (explosions ++ [Explosion.mkSmall (b'.x : ℚ) b'.y]) i
    if b'.y < -10 then
      Except.error valueErrorMsg
    else
      Except.ok (none, r.1, r.2)
  | none =>
    if b'.y < -10 then
      Except.ok (none, enemies, explosions)
    else
      Except.ok (some b', enemies, explosions)

/-- Embeds `Ship.move_to`. -/
def shipMoveTo (sh : Ship) (x : ℤ) : Ship := { sh with target_x := (x : ℚ) }

/-- Embeds `Ship.is_moving`. -/
def shipIsMoving (sh : Ship) : Bool := sh.x ≠ sh.target_x

/-- Embeds `Ship.can_shoot`. -/
def shipCanShoot (sh : Ship) : Bool := sh.shoot_cooldown = 0

/-- Embeds `Ship.animate`: step toward the target column, clamped at the
target, then decrement a positive cooldown. -/
def shipAnimate (C : Consts) (sh : Ship) : Ship :=
  let x' :=
    if sh.x < sh.target_x then min (sh.x + C.SHIP_SPEED) sh.target_x
    else if sh.target_x < sh.x then max (sh.x - C.SHIP_SPEED) sh.target_x
    else sh.x
  let cd' := if 0 < sh.shoot_cooldown then sh.shoot_cooldown - 1 else sh.shoot_cooldown
  { sh with x := x', shoot_cooldown := cd' }

/-- Embeds `Starfield.animate`, with the `random.uniform(-2, NUM_WEEKS + 2)`
draws supplied as the stream `rng` (one value consumed per wrapped star). -/
def starfieldPass (C : Consts) : List ℚ → List Star → List Star × List ℚ
  | rng, [] => ([], rng)
  | rng, st :: rest =>
    let y' := st.y + st.speed
    if (C.SHIP_POSITION_Y : ℚ) + 4 < y' then
      let
        (sts, rng') := starfieldPass C rng.tail rest
      ({ st with y := -2, x := rng.headD 0 } :: sts, rng')
    else
      let
        (sts, rng') := starfieldPass C rng rest
      ({ st with y := y' } :: sts, rng')

/-- Embeds the `for explosion in self.explosions` loop of
`GameState.animate`.  Each body runs `Explosion.animate`: increment
`frame`; once `frame >= max_frames` the explosion removes itself from the
list being iterated, so the element that slides into its position is
skipped (kept unprocessed), matching the Python iterator's index advance. -/
def explosionsPass : List Explosion → List Explosion
  | [] => []
  | e :: rest =>
    if e.max_frames ≤ e.frame + 1 then
      match rest with
      | [] => []
      | e2 :: rest2 => e2 :: explosionsPass rest2
    else
      { e with frame := e.frame + 1 } :: explosionsPass rest

/-- Embeds the `for bullet in self.bullets` loop of `GameState.animate`,
threading the enemy and explosion collections that `Bullet.animate`
mutates.  As in `explosionsPass`, a bullet that removes itself causes the
next bullet to be skipped in this pass. -/
def bulletsPass (C : Consts) :
    List Bullet → List Enemy → List Explosion →
    Except String (List Bullet × List Enemy × List Explosion)
  | [], enemies, explosions => Except.ok ([], enemies, explosions)
  | b :: rest, enemies, explosions =>
    match bulletAnimate C b enemies explosions with
    | Except.error msg => Except.error msg
    | Except.ok (some b', enemies1, explosions1) =>
      match bulletsPass C rest enemies1 explosions1 with
      | Except.error msg => Except.error msg
      | Except.ok (bs, enemies2, explosions2) => Except.ok (b' :: bs, enemies2, explosions2)
    | Except.ok (none, enemies1, explosions1) =>
      match rest with
      | [] => Except.ok ([], enemies1, explosions1)
      | b2 :: rest2 =>
        match bulletsPass C rest2 enemies1 explosions1 with
        | Except.error msg => Except.error msg
        | Except.ok (bs, enemies2, explosions2) => Except.ok (b2 :: bs, enemies2, explosions2)

/-! ## GameState operations -/

/-- Embeds `GameState.animate`: starfield, ship, each enemy
(`Enemy.animate` is `pass`, leaving the list unchanged), each bullet, each
explosion — in the source's order. -/
def gameStateAnimate (C : Consts) (rng : List ℚ) (s : GameState) :
    Except String GameState :=
  let sf := (starfieldPass C rng s.starfield).1
  let sh := shipAnimate C s.ship
  match bulletsPass C s.bullets s.enemies s.explosions with
  | Except.error msg => Except.error msg
  | Except.ok (bs, enemies1, explosions1) =>
    Except.ok { starfield := sf, ship := sh, enemies := enemies1, bullets := bs,
                explosions := explosionsPass explosions1 }

/-- Embeds `GameState.shoot`: a bullet at column `int(self.ship.x)`
starting at `SHIP_POSITION_Y - 1` is appended to the bullet list, and the
cooldown is reset. -/
def gameStateShoot (C : Consts) (s : GameState) : GameState :=
  { s with
    bullets := s.bullets ++ [{ x := pyInt s.ship.x, y := (C.SHIP_POSITION_Y : ℚ) - 1 }],
    ship := { s.ship with shoot_cooldown := C.SHIP_SHOOT_COOLDOWN_FRAMES } }

/-- Ship movement command delegated to `Ship.move_to`. -/
def gameStateMoveTo (s : GameState) (x : ℤ) : GameState :=
  { s with ship := shipMoveTo s.ship x }

/-- Embeds `GameState.is_complete`. -/
def gameStateIsComplete (s : GameState) : Bool := s.enemies.length = 0

/-- Embeds `GameState.can_take_action`. -/
def gameStateCanTakeAction (s : GameState) : Bool :=
  !shipIsMoving s.ship && shipCanShoot s.ship

/-- Inner loop of `GameState._initialize_enemies` over one week's days,
carrying the enumeration indices: `level <= 0` is skipped (`continue`),
otherwise `Enemy(week_idx, day_idx, level)` is appended. -/
def initEnemiesWeek (wi : ℕ) : ℕ → List ℤ → List Enemy
  | _, [] => []
  | di, level :: rest =>
    if level ≤ 0 then initEnemiesWeek wi (di + 1) rest
    else { x := (wi : ℤ), y := (di : ℤ), health := level } :: initEnemiesWeek wi (di + 1) rest

/-- Outer loop of `GameState._initialize_enemies` over the weeks. -/
def initEnemiesAux : ℕ → List (List ℤ) → List Enemy
  | _, [] => []
  | wi, w :: rest => initEnemiesWeek wi 0 w ++ initEnemiesAux (wi + 1) rest

/-- Embeds `GameState._initialize_enemies` on the input grid, given as the
list of weeks, each week the list of its days' intensity levels. -/
def initEnemies (weeks : List (List ℤ)) : List Enemy :=
  initEnemiesAux 0 weeks

/-- Embeds `GameState.__init__`: fresh ship at column 25 with zero
cooldown, empty bullet and explosion lists, enemies built from the
contribution data.  The `Starfield()` construction draws random stars; the
star list is supplied explicitly (see the header comment on randomness). -/
def gameStateInit (stars : List Star) (weeks : List (List ℤ)) : GameState :=
  { starfield := stars,
    ship := { x := 25, target_x := 25, shoot_cooldown := 0 },
    enemies := initEnemies weeks,
    bullets := [],
    explosions := [] }

/-! ## Reachability: the public operations of `GameState` -/

/-- One public operation applied to a game state: `shoot`, `move_to`, or a
successful `animate` frame. -/
inductive GStep (C : Consts) : GameState → GameState → Prop
  | shoot (s : GameState) : GStep C s (gameStateShoot C s)
  | moveTo (s : GameState) (x : ℤ) : GStep C s (gameStateMoveTo s x)
  | animate (s : GameState) (rng : List ℚ) (s' : GameState)
      (h : gameStateAnimate C rng s = Except.ok s') : GStep C s s'

/-- States reachable from some freshly constructed game state by a
sequence of public operations. -/
inductive Reachable (C : Consts) : GameState → Prop
  | init (stars : List Star) (weeks : List (List ℤ)) :
      Reachable C (gameStateInit stars weeks)
  | step {s s' : GameState} : Reachable C s → GStep C s s' → Reachable C s'

/-! ## Spec-side definition for the deferred-sweep animate pass

The spec's design notes (section 9) demand that `advance()` return
removal events applied in a single end-of-step sweep after the full pass.
This is the semantics claim C1 asserts; it is written here from the spec's
words, to be compared with the source-derived `explosionsPass`. -/

/-- Modelled from the spec: the deferred-sweep explosion pass — every
explosion present at the start of the step is animated (frame incremented)
exactly once, and all removals (frame having reached `max_frames`) are
applied in one end-of-step sweep after the full pass. -/
def specExplosionsPass (exs : List Explosion) : List Explosion :=
  ((exs.map fun e => { e with frame := e.frame + 1 }).filter
    fun e => decide (e.frame < e.max_frames))

/-! ## Concrete instances used in counterexamples and witnesses -/

/-- Representative concrete constants for counterexamples and witnesses
(the real `constants.py` is absent from the provided sources): ship row 8
(just below the 7-row grid), unit speeds, 3-frame cooldown. -/
def C0 : Consts :=
  { SHIP_POSITION_Y := 8, SHIP_SPEED := 1, BULLET_SPEED := 1,
    SHIP_SHOOT_COOLDOWN_FRAMES := 3 }

/-- Input grid with a single level-1 cell at column 25, row 6 (the column
the ship starts in). -/
def weeksA : List (List ℤ) := List.replicate 25 (List.replicate 7 0) ++ [[0, 0, 0, 0, 0, 0, 1]]

/-- Small explosion at (25, 6) at frame `f`. -/
def exS (f : ℕ) : Explosion :=
  { x := 25, y := 6, small := true, color := (255, 223, 0), frame := f, max_frames := 6 }

/-- Large explosion at (25, 6) at frame `f`. -/
def exL (f : ℕ) : Explosion :=
  { x := 25, y := 6, small := false, color := (57, 211, 83), frame := f, max_frames := 10 }

/-- Game state with an idle ship at column 25 with cooldown `cd`, no
stars, and the given collections. -/
def mkT (cd : ℤ) (enemies : List Enemy) (bullets : List Bullet)
    (explosions : List Explosion) : GameState :=
  { starfield := [], ship := { x := 25, target_x := 25, shoot_cooldown := cd },
    enemies := enemies, bullets := bullets, explosions := explosions }

/-- The state constructed from `weeksA`. -/
def tInit : GameState := mkT 0 [{ x := 25, y := 6, health := 1 }] [] []

/-- The state of `weeksA` after one shoot command. -/
def tShot : GameState := mkT 3 [{ x := 25, y := 6, health := 1 }] [{ x := 25, y := 7 }] []

/-- States along the animate trace of `weeksA` after the bullet has hit:
no enemies or bullets remain, and the small and large explosions spawned
together by the hit stand at frame `f`. -/
def tFrame (cd : ℤ) (f : ℕ) : GameState := mkT cd [] [] [exS f, exL f]

/-- State with an idle ship resting at the fractional column 3.7. -/
def shipCex : GameState :=
  { starfield := [], ship := { x := 37 / 10, target_x := 37 / 10, shoot_cooldown := 0 },
    enemies := [], bullets := [], explosions := [] }

/-- State in which the coming animate pass removes nothing: one enemy away
from the bullet's column, one fresh bullet, one young explosion. -/
def tQuiet : GameState :=
  mkT 0 [{ x := 3, y := 0, health := 1 }] [{ x := 25, y := 7 }] [exS 1]

/-! ## Invariants -/

/-- All enemies sit at a non-negative row and have positive health. -/
def EnemyInv (enemies : List Enemy) : Prop :=
  ∀ e ∈ enemies, 0 ≤ e.y ∧ 1 ≤ e.health

/-- The first enemy list refines the second: every enemy of the first
occupies a position already occupied in the second with no larger health
(enemy updates only remove enemies or lower health, never move or add
them). -/
def PosSub (en' en : List Enemy) : Prop :=
  ∀ e' ∈ en', ∃ e ∈ en, e'.x = e.x ∧ e'.y = e.y ∧ e'.health ≤ e.health

/-- A live bullet is on-screen and either has not yet passed any enemy in
its column, or is still at its spawn height (at least row 6, below the
grid). -/
def BulletInv (enemies : List Enemy) (b : Bullet) : Prop :=
  -10 ≤ b.y ∧ ((∀ e ∈ enemies, e.x = b.x → (e.y : ℚ) < b.y) ∨ 6 ≤ b.y)

/-- State-level invariant maintained by every public operation. -/
def StateInv (s : GameState) : Prop :=
  EnemyInv s.enemies ∧ ∀ b ∈ s.bullets, BulletInv s.enemies b

theorem posSub_refl (en : List Enemy) : PosSub en en :=
  fun e' he' => ⟨e', he', rfl, rfl, le_rfl⟩

theorem posSub_trans {en2 en1 en0 : List Enemy} (h2 : PosSub en2 en1)
    (h1 : PosSub en1 en0) : PosSub en2 en0 := by
  intro e' he'
  obtain ⟨e1, he1, hx1, hy1, hh1⟩ := h2 e' he'
  obtain ⟨e0, he0, hx0, hy0, hh0⟩ := h1 e1 he1
  exact ⟨e0, he0, hx1.trans hx0, hy1.trans hy0, hh1.trans hh0⟩

theorem bulletInv_mono {en' en : List Enemy} {b : Bullet} (hsub : PosSub en' en)
    (hb : BulletInv en b) : BulletInv en' b := by
  refine ⟨hb.1, ?_⟩
  rcases hb.2 with h | h
  · left
    intro e' he' hx
    obtain ⟨e, he, hex, hey, -⟩ := hsub e' he'
    rw [hey]
    exact h e he (hex ▸ hx)
  · right; exact h

theorem enemyInv_mono {en' en : List Enemy} (hsub : PosSub en' en)
    (hInv : EnemyInv en) (hhealth : ∀ e ∈ en', 1 ≤ e.health) : EnemyInv en' := by
  intro e' he'
  obtain ⟨e, he, -, hey, -⟩ := hsub e' he'
  exact ⟨hey ▸ (hInv e he).1, hhealth e' he'⟩

/-! ## Characterizations of collision lookup -/

theorem findHitIdx_eq_none {b : Bullet} {en : List Enemy} :
    findHitIdx b en = none ↔ ∀ e ∈ en, ¬(e.x = b.x ∧ b.y ≤ (e.y : ℚ)) := by
  induction en with
  | nil => simp [findHitIdx]
  | cons e rest ih =>
    by_cases h : e.x = b.x ∧ b.y ≤ (e.y : ℚ)
    · simp [findHitIdx, h]
    · simp only [findHitIdx, if_neg h, Option.map_eq_none', ih, List.mem_cons]
      constructor
      · intro hall e' he'
        rcases he' with rfl | he'
        · exact h
        · exact hall e' he'
      · intro hall e' he'
        exact hall e' (Or.inr he')

theorem findHitIdx_eq_some {b : Bullet} {en : List Enemy} {i : ℕ}
    (h : findHitIdx b en = some i) :
    ∃ e, en[i]? = some e ∧ e.x = b.x ∧ b.y ≤ (e.y : ℚ) := by
  induction en generalizing i with
  | nil => simp [findHitIdx] at h
  | cons e rest ih =>
    simp only [findHitIdx] at h
    by_cases hc : e.x = b.x ∧ b.y ≤ (e.y : ℚ)
    · rw [if_pos hc] at h
      obtain rfl : (0 : ℕ) = i := Option.some_inj.mp h
      exact ⟨e, by simp, hc⟩
    · rw [if_neg hc] at h
      obtain ⟨j, hj, rfl⟩ := Option.map_eq_some'.mp h
      obtain ⟨e', he', hx, hy⟩ := ih hj
      exact ⟨e', by simpa using he', hx, hy⟩

/-! ## Properties of damage resolution -/

theorem enemyTakeDamage_posSub (en : List Enemy) (ex : List Explosion) (i : ℕ) :
    PosSub (enemyTakeDamage en ex i).1 en := by
  unfold enemyTakeDamage
  cases he : en[i]? with
  | none => exact posSub_refl en
  | some e =>
    by_cases hh : e.health - 1 ≤ 0
    · simp only [hh, if_pos, hh]
      intro e' he'
      exact ⟨e', List.mem_of_mem_eraseIdx he', rfl, rfl, le_rfl⟩
    · simp only [hh, if_neg, not_false_iff]
      intro e' he'
      rcases List.mem_or_eq_of_mem_set he' with h | rfl
      · exact ⟨e', h, rfl, rfl, le_rfl⟩
      · exact ⟨e, List.getElem?_mem he, rfl, rfl, by show e.health - 1 ≤ e.health; omega⟩

theorem enemyTakeDamage_health (en : List Enemy) (ex : List Explosion) (i : ℕ)
    (hInv : EnemyInv en) : ∀ e' ∈ (enemyTakeDamage en ex i).1, 1 ≤ e'.health := by
  unfold enemyTakeDamage
  cases he : en[i]? with
  | none => exact fun e' he' => (hInv e' he').2
  | some e =>
    by_cases hh : e.health - 1 ≤ 0
    · simp only [hh, if_pos]
      exact fun e' he' => (hInv e' (List.mem_of_mem_eraseIdx he')).2
    · simp only [hh, if_neg, not_false_iff]
      intro e' he'
      rcases List.mem_or_eq_of_mem_set he' with h | rfl
      · exact (hInv e' h).2
      · simp only []
        omega

theorem enemyTakeDamage_enemyInv (en : List Enemy) (ex : List Explosion) (i : ℕ)
    (hInv : EnemyInv en) : EnemyInv (enemyTakeDamage en ex i).1 :=
  enemyInv_mono (enemyTakeDamage_posSub en ex i) hInv (enemyTakeDamage_health en ex i hInv)

/-! ## Properties of a single bullet step -/

theorem bulletAnimate_ok_enemies {C : Consts} {b : Bullet} {en : List Enemy}
    {ex : List Explosion} {ob : Option Bullet} {en' : List Enemy} {ex' : List Explosion}
    (h : bulletAnimate C b en ex = Except.ok (ob, en', ex')) (hInv : EnemyInv en) :
    EnemyInv en' ∧ PosSub en' en := by
  unfold bulletAnimate at h
  cases hf : findHitIdx { b with y := b.y - C.BULLET_SPEED } en with
  | some i =>
    simp only [hf] at h
    by_cases hoff : b.y - C.BULLET_SPEED < -10
    · rw [if_pos hoff] at h
      exact absurd h (by simp)
    · rw [if_neg hoff, Except.ok.injEq, Prod.mk.injEq, Prod.mk.injEq] at h
      obtain ⟨-, h2, -⟩ := h
      rw [← h2]
      exact ⟨enemyTakeDamage_enemyInv _ _ _ hInv, enemyTakeDamage_posSub _ _ _⟩
  | none =>
    simp only [hf] at h
    by_cases hoff : b.y - C.BULLET_SPEED < -10
    · rw [if_pos hoff, Except.ok.injEq, Prod.mk.injEq, Prod.mk.injEq] at h
      obtain ⟨-, h2, -⟩ := h
      rw [← h2]
      exact ⟨hInv, posSub_refl en⟩
    · rw [if_neg hoff, Except.ok.injEq, Prod.mk.injEq, Prod.mk.injEq] at h
      obtain ⟨-, h2, -⟩ := h
      rw [← h2]
      exact ⟨hInv, posSub_refl en⟩

theorem bulletAnimate_total {C : Consts} (hB : C.BULLET_SPEED ≤ 10) (b : Bullet)
    (en : List Enemy) (ex : List Explosion) (hE : EnemyInv en) (hb : BulletInv en b) :
    ∃ ob en' ex', bulletAnimate C b en ex = Except.ok (ob, en', ex') ∧
      EnemyInv en' ∧ PosSub en' en ∧
      ∀ b', ob = some b' → BulletInv en' b' ∧ b'.x = b.x ∧ b'.y = b.y - C.BULLET_SPEED := by
  cases hf : findHitIdx { b with y := b.y - C.BULLET_SPEED } en with
  | some i =>
    obtain ⟨e, hei, hex, hey⟩ := findHitIdx_eq_some hf
    have hmem : e ∈ en := List.getElem?_mem hei
    have hy0 : (0 : ℚ) ≤ (e.y : ℚ) := by exact_mod_cast (hE e hmem).1
    have hoff : ¬(b.y - C.BULLET_SPEED < -10) := by
      rcases hb.2 with hlt | h6
      · have := hlt e hmem hex
        push_neg
        linarith
      · push_neg
        linarith
    refine ⟨none,
      (enemyTakeDamage en (ex ++ [Explosion.mkSmall ((b.x : ℚ)) (b.y - C.BULLET_SPEED)]) i).1,
      (enemyTakeDamage en (ex ++ [Explosion.mkSmall ((b.x : ℚ)) (b.y - C.BULLET_SPEED)]) i).2,
      ?_, enemyTakeDamage_enemyInv _ _ _ hE, enemyTakeDamage_posSub _ _ _, by simp⟩
    unfold bulletAnimate
    simp only [hf, if_neg hoff]
  | none =>
    by_cases hoff : b.y - C.BULLET_SPEED < -10
    · refine ⟨none, en, ex, ?_, hE, posSub_refl en, by simp⟩
      unfold bulletAnimate
      simp only [hf, if_pos hoff]
    · refine ⟨some { b with y := b.y - C.BULLET_SPEED }, en, ex, ?_, hE, posSub_refl en, ?_⟩
      · unfold bulletAnimate
        simp only [hf, if_neg hoff]
      · rintro b' hb'
        obtain rfl := Option.some_inj.mp hb'
        refine ⟨⟨not_lt.mp hoff, Or.inl ?_⟩, rfl, rfl⟩
        intro e hmem hx
        have := findHitIdx_eq_none.mp hf e hmem
        simp only [hx, true_and, not_le] at this
        exact this

/-! ## Characterization of enemy initialization -/

theorem initEnemiesWeek_mem {wi di : ℕ} {w : List ℤ} {e : Enemy} :
    e ∈ initEnemiesWeek wi di w ↔
      ∃ k l, w[k]? = some l ∧ 0 < l ∧ e = ⟨(wi : ℤ), ((di + k : ℕ) : ℤ), l⟩ := by
  induction w generalizing di with
  | nil => simp [initEnemiesWeek]
  | cons level rest ih =>
    by_cases hl : level ≤ 0
    · rw [initEnemiesWeek, if_pos hl, ih]
      constructor
      · rintro ⟨k, l, hk, hl', rfl⟩
        refine ⟨k + 1, l, by simpa using hk, hl', ?_⟩
        have harith : di + 1 + k = di + (k + 1) := by omega
        rw [harith]
      · rintro ⟨k, l, hk, hl', rfl⟩
        cases k with
        | zero =>
          obtain rfl : level = l := by simpa using hk
          omega
        | succ k =>
          refine ⟨k, l, by simpa using hk, hl', ?_⟩
          have harith : di + 1 + k = di + (k + 1) := by omega
          rw [harith]
    · rw [initEnemiesWeek, if_neg hl]
      simp only [List.mem_cons, ih]
      constructor
      · rintro (rfl | ⟨k, l, hk, hl', rfl⟩)
        · exact ⟨0, level, by simp, by omega, by simp⟩
        · refine ⟨k + 1, l, by simpa using hk, hl', ?_⟩
          have harith : di + 1 + k = di + (k + 1) := by omega
          rw [harith]
      · rintro ⟨k, l, hk, hl', rfl⟩
        cases k with
        | zero =>
          obtain rfl : level = l := by simpa using hk
          exact Or.inl (by simp)
        | succ k =>
          refine Or.inr ⟨k, l, by simpa using hk, hl', ?_⟩
          have harith : di + 1 + k = di + (k + 1) := by omega
          rw [harith]

theorem initEnemiesAux_mem {wi : ℕ} {weeks : List (List ℤ)} {e : Enemy} :
    e ∈ initEnemiesAux wi weeks ↔
      ∃ j w, weeks[j]? = some w ∧ e ∈ initEnemiesWeek (wi + j) 0 w := by
  induction weeks generalizing wi with
  | nil => simp [initEnemiesAux]
  | cons w rest ih =>
    rw [initEnemiesAux]
    simp only [List.mem_append, ih]
    constructor
    · rintro (hw | ⟨j, w', hj, hw'⟩)
      · exact ⟨0, w, by simp, by simpa using hw⟩
      · refine ⟨j + 1, w', by simpa using hj, ?_⟩
        have harith : wi + 1 + j = wi + (j + 1) := by omega
        rwa [harith] at hw'
    · rintro ⟨j, w', hj, hw'⟩
      cases j with
      | zero =>
        obtain rfl : w = w' := by simpa using hj
        exact Or.inl (by simpa using hw')
      | succ j =>
        refine Or.inr ⟨j, w', by simpa using hj, ?_⟩
        have harith : wi + 1 + j = wi + (j + 1) := by omega
        rwa [harith]

theorem initEnemies_mem {weeks : List (List ℤ)} {e : Enemy} :
    e ∈ initEnemies weeks ↔
      ∃ (wi di : ℕ) (w : List ℤ) (l : ℤ), weeks[wi]? = some w ∧ w[di]? = some l ∧ 0 < l ∧
        e = ⟨(wi : ℤ), (di : ℤ), l⟩ := by
  rw [initEnemies, initEnemiesAux_mem]
  constructor
  · rintro ⟨j, w, hj, hw⟩
    rw [initEnemiesWeek_mem] at hw
    obtain ⟨k, l, hk, hl, rfl⟩ := hw
    exact ⟨j, k, w, l, by simpa using hj, hk, hl, by simp⟩
  · rintro ⟨wi, di, w, l, hwi, hdi, hl, rfl⟩
    refine ⟨wi, w, by simpa using hwi, ?_⟩
    rw [initEnemiesWeek_mem]
    exact ⟨di, l, hdi, hl, by simp⟩

theorem initEnemiesWeek_length (wi di : ℕ) (w : List ℤ) :
    (initEnemiesWeek wi di w).length = w.countP (fun l => decide (0 < l)) := by
  induction w generalizing di with
  | nil => simp [initEnemiesWeek]
  | cons level rest ih =>
    by_cases hl : level ≤ 0
    · rw [initEnemiesWeek, if_pos hl, List.countP_cons]
      have hfalse : decide (0 < level) = false := by simpa using hl
      rw [hfalse, ih]
      simp
    · rw [initEnemiesWeek, if_neg hl, List.countP_cons]
      have htrue : decide (0 < level) = true := by simpa using hl
      rw [htrue, List.length_cons, ih]
      simp

theorem initEnemiesAux_length (wi : ℕ) (weeks : List (List ℤ)) :
    (initEnemiesAux wi weeks).length =
      (weeks.map fun w => w.countP fun l => decide (0 < l)).sum := by
  induction weeks generalizing wi with
  | nil => simp [initEnemiesAux]
  | cons w rest ih =>
    rw [initEnemiesAux, List.length_append, initEnemiesWeek_length, ih]
    simp

theorem initEnemies_enemyInv (weeks : List (List ℤ)) : EnemyInv (initEnemies weeks) := by
  intro e he
  rw [initEnemies_mem] at he
  obtain ⟨wi, di, w, l, -, -, hl, rfl⟩ := he
  exact ⟨by positivity, by simpa using hl⟩

/-! ## Properties of the bullet loop -/

theorem bulletsPass_ok_enemies_bounded {C : Consts} :
    ∀ (n : ℕ) (bs : List Bullet) (en : List Enemy) (ex : List Explosion)
      (bs' : List Bullet) (en' : List Enemy) (ex' : List Explosion),
      bs.length ≤ n →
      bulletsPass C bs en ex = Except.ok (bs', en', ex') → EnemyInv en →
      EnemyInv en' ∧ PosSub en' en := by
  intro n
  induction n with
  | zero =>
    intro bs en ex bs' en' ex' hlen h hInv
    obtain rfl : bs = [] := List.length_eq_zero.mp (Nat.le_zero.mp hlen)
    rw [bulletsPass, Except.ok.injEq, Prod.mk.injEq, Prod.mk.injEq] at h
    obtain ⟨-, h2, -⟩ := h
    rw [← h2]
    exact ⟨hInv, posSub_refl en⟩
  | succ n ih =>
    intro bs en ex bs' en' ex' hlen h hInv
    cases bs with
    | nil =>
      rw [bulletsPass, Except.ok.injEq, Prod.mk.injEq, Prod.mk.injEq] at h
      obtain ⟨-, h2, -⟩ := h
      rw [← h2]
      exact ⟨hInv, posSub_refl en⟩
    | cons b rest =>
      rw [bulletsPass] at h
      cases hba : bulletAnimate C b en ex with
      | error msg => simp only [hba] at h; exact absurd h (by simp)
      | ok r =>
        obtain ⟨ob, en1, ex1⟩ := r
        have hstep := bulletAnimate_ok_enemies hba hInv
        simp only [hba] at h
        cases ob with
        | some b' =>
          cases hbp : bulletsPass C rest en1 ex1 with
          | error msg => simp only [hbp] at h; exact absurd h (by simp)
          | ok r2 =>
            obtain ⟨bs2, en2, ex2⟩ := r2
            simp only [hbp, Except.ok.injEq, Prod.mk.injEq] at h
            obtain ⟨-, h2, -⟩ := h
            rw [← h2]
            have hrec := ih rest en1 ex1 bs2 en2 ex2 (by simpa using hlen) hbp hstep.1
            exact ⟨hrec.1, posSub_trans hrec.2 hstep.2⟩
        | none =>
          cases rest with
          | nil =>
            simp only [Except.ok.injEq, Prod.mk.injEq] at h
            obtain ⟨-, h2, -⟩ := h
            rw [← h2]
            exact hstep
          | cons b2 rest2 =>
            cases hbp : bulletsPass C rest2 en1 ex1 with
            | error msg => simp only [hbp] at h; exact absurd h (by simp)
            | ok r2 =>
              obtain ⟨bs2, en2, ex2⟩ := r2
              simp only [hbp, Except.ok.injEq, Prod.mk.injEq] at h
              obtain ⟨-, h2, -⟩ := h
              rw [← h2]
              have hlen2 : rest2.length ≤ n := by
                simp only [List.length_cons] at hlen
                omega
              have hrec := ih rest2 en1 ex1 bs2 en2 ex2 hlen2 hbp hstep.1
              exact ⟨hrec.1, posSub_trans hrec.2 hstep.2⟩

theorem bulletsPass_ok_enemies {C : Consts} {bs : List Bullet} {en : List Enemy}
    {ex : List Explosion} {bs' : List Bullet} {en' : List Enemy} {ex' : List Explosion}
    (h : bulletsPass C bs en ex = Except.ok (bs', en', ex')) (hInv : EnemyInv en) :
    EnemyInv en' ∧ PosSub en' en :=
  bulletsPass_ok_enemies_bounded bs.length bs en ex bs' en' ex' le_rfl h hInv

theorem bulletsPass_total_bounded {C : Consts} (hB : C.BULLET_SPEED ≤ 10) :
    ∀ (n : ℕ) (bs : List Bullet) (en : List Enemy) (ex : List Explosion),
      bs.length ≤ n → EnemyInv en → (∀ b ∈ bs, BulletInv en b) →
      ∃ bs' en' ex', bulletsPass C bs en ex = Except.ok (bs', en', ex') ∧
        EnemyInv en' ∧ PosSub en' en ∧ ∀ b ∈ bs', BulletInv en' b := by
  intro n
  induction n with
  | zero =>
    intro bs en ex hlen hE _
    obtain rfl : bs = [] := List.length_eq_zero.mp (Nat.le_zero.mp hlen)
    exact ⟨[], en, ex, by rw [bulletsPass], hE, posSub_refl en, by simp⟩
  | succ n ih =>
    intro bs en ex hlen hE hbs
    cases bs with
    | nil => exact ⟨[], en, ex, by rw [bulletsPass], hE, posSub_refl en, by simp⟩
    | cons b rest =>
      obtain ⟨ob, en1, ex1, hba, hE1, hsub1, hsurv⟩ :=
        bulletAnimate_total hB b en ex hE (hbs b (List.mem_cons_self b rest))
      cases ob with
      | some b' =>
        obtain ⟨bs2, en2, ex2, hbp, hE2, hsub2, hbs2⟩ :=
          ih rest en1 ex1 (by simpa using hlen) hE1
            (fun b hb => bulletInv_mono hsub1 (hbs b (List.mem_cons_of_mem _ hb)))
        refine ⟨b' :: bs2, en2, ex2, ?_, hE2, posSub_trans hsub2 hsub1, ?_⟩
        · simp only [bulletsPass, hba, hbp]
        · intro bb hbb
          rcases List.mem_cons.mp hbb with rfl | hbb
          · exact bulletInv_mono hsub2 (hsurv bb rfl).1
          · exact hbs2 bb hbb
      | none =>
        cases rest with
        | nil =>
          refine ⟨[], en1, ex1, ?_, hE1, hsub1, by simp⟩
          simp only [bulletsPass, hba]
        | cons b2 rest2 =>
          obtain ⟨bs2, en2, ex2, hbp, hE2, hsub2, hbs2⟩ :=
            ih rest2 en1 ex1 (by simp only [List.length_cons] at hlen ⊢; omega) hE1
              (fun b hb => bulletInv_mono hsub1
                (hbs b (List.mem_cons_of_mem _ (List.mem_cons_of_mem _ hb))))
          refine ⟨b2 :: bs2, en2, ex2, ?_, hE2, posSub_trans hsub2 hsub1, ?_⟩
          · simp only [bulletsPass, hba, hbp]
          · intro bb hbb
            rcases List.mem_cons.mp hbb with rfl | hbb
            · exact bulletInv_mono (posSub_trans hsub2 hsub1)
                (hbs bb (List.mem_cons_of_mem _ (List.mem_cons_self bb rest2)))
            · exact hbs2 bb hbb

theorem bulletsPass_total {C : Consts} (hB : C.BULLET_SPEED ≤ 10) (bs : List Bullet)
    (en : List Enemy) (ex : List Explosion) (hE : EnemyInv en)
    (hbs : ∀ b ∈ bs, BulletInv en b) :
    ∃ bs' en' ex', bulletsPass C bs en ex = Except.ok (bs', en', ex') ∧
      EnemyInv en' ∧ PosSub en' en ∧ ∀ b ∈ bs', BulletInv en' b :=
  bulletsPass_total_bounded hB bs.length bs en ex le_rfl hE hbs

/-! ## Decomposition of a successful animate frame -/

theorem gameStateAnimate_ok_elim {C : Consts} {rng : List ℚ} {s s' : GameState}
    (h : gameStateAnimate C rng s = Except.ok s') :
    ∃ bs' en' ex', bulletsPass C s.bullets s.enemies s.explosions = Except.ok (bs', en', ex') ∧
      s' = { starfield := (starfieldPass C rng s.starfield).1, ship := shipAnimate C s.ship,
             enemies := en', bullets := bs', explosions := explosionsPass ex' } := by
  unfold gameStateAnimate at h
  cases hbp : bulletsPass C s.bullets s.enemies s.explosions with
  | error msg => simp only [hbp] at h; exact absurd h (by simp)
  | ok r =>
    obtain ⟨bs', en', ex'⟩ := r
    simp only [hbp, Except.ok.injEq] at h
    exact ⟨bs', en', ex', rfl, h.symm⟩

/-! ## Invariants hold in every reachable state -/

theorem reachable_enemyInv {C : Consts} {s : GameState} (hs : Reachable C s) :
    EnemyInv s.enemies := by
  induction hs with
  | init stars weeks => exact initEnemies_enemyInv weeks
  | step hr hstep ih =>
    cases hstep with
    | shoot => exact ih
    | moveTo x => exact ih
    | animate rng s' h =>
      obtain ⟨bs', en', ex', hbp, rfl⟩ := gameStateAnimate_ok_elim h
      exact (bulletsPass_ok_enemies hbp ih).1

theorem reachable_stateInv {C : Consts} (hC : 7 ≤ C.SHIP_POSITION_Y)
    (hB : C.BULLET_SPEED ≤ 10) {s : GameState} (hs : Reachable C s) : StateInv s := by
  induction hs with
  | init stars weeks =>
    exact ⟨initEnemies_enemyInv weeks, by simp [gameStateInit]⟩
  | step hr hstep ih =>
    cases hstep with
    | shoot =>
      refine ⟨ih.1, ?_⟩
      intro b hb
      rcases List.mem_append.mp hb with hb | hb
      · exact ih.2 b hb
      · have hcast : (7 : ℚ) ≤ (C.SHIP_POSITION_Y : ℚ) := by exact_mod_cast hC
        rw [List.mem_singleton] at hb
        subst hb
        constructor
        · show (-10 : ℚ) ≤ (C.SHIP_POSITION_Y : ℚ) - 1
          linarith
        · right
          show (6 : ℚ) ≤ (C.SHIP_POSITION_Y : ℚ) - 1
          linarith
    | moveTo x => exact ih
    | animate rng s' h =>
      obtain ⟨bs', en', ex', hbp, rfl⟩ := gameStateAnimate_ok_elim h
      obtain ⟨bs2, en2, ex2, hbp2, hE2, hsub2, hbs2⟩ :=
        bulletsPass_total hB _ _ _ ih.1 ih.2
      rw [hbp2, Except.ok.injEq, Prod.mk.injEq, Prod.mk.injEq] at hbp
      obtain ⟨rfl, rfl, rfl⟩ := hbp
      exact ⟨hE2, hbs2⟩

/-! ## Ship movement analysis -/

theorem shipAnimate_target_x (C : Consts) (sh : Ship) :
    (shipAnimate C sh).target_x = sh.target_x := rfl

theorem shipAnimate_dist (C : Consts) (hs : 0 ≤ C.SHIP_SPEED) (sh : Ship) :
    |(shipAnimate C sh).x - sh.target_x| = max (|sh.x - sh.target_x| - C.SHIP_SPEED) 0 := by
  unfold shipAnimate
  rcases lt_trichotomy sh.x sh.target_x with h | h | h
  · rw [if_pos h]
    simp only []
    rw [abs_of_neg (show sh.x - sh.target_x < 0 by linarith)]
    rcases le_total (sh.x + C.SHIP_SPEED) sh.target_x with hc | hc
    · rw [min_eq_left hc, abs_of_nonpos (by linarith), max_eq_left (by linarith)]
      ring
    · rw [min_eq_right hc, abs_of_nonpos (by linarith), max_eq_right (by linarith)]
      ring
  · rw [if_neg (by rw [h]; exact lt_irrefl _), if_neg (by rw [h]; exact lt_irrefl _)]
    simp only []
    rw [h, sub_self, abs_zero, zero_sub, max_eq_right (by linarith)]
  · rw [if_neg (by linarith), if_pos h]
    simp only []
    rw [abs_of_pos (show 0 < sh.x - sh.target_x by linarith)]
    rcases le_total sh.target_x (sh.x - C.SHIP_SPEED) with hc | hc
    · rw [max_eq_left hc, abs_of_nonneg (by linarith), max_eq_left (by linarith)]
      ring
    · rw [max_eq_right hc, sub_self, abs_zero, max_eq_right (by linarith)]

theorem shipAnimate_between (C : Consts) (hs : 0 ≤ C.SHIP_SPEED) (sh : Ship) :
    min sh.x sh.target_x ≤ (shipAnimate C sh).x ∧
      (shipAnimate C sh).x ≤ max sh.x sh.target_x := by
  unfold shipAnimate
  rcases lt_trichotomy sh.x sh.target_x with h | h | h
  · rw [if_pos h]
    simp only []
    constructor
    · rw [min_eq_left h.le]
      exact le_min (by linarith) h.le
    · rw [max_eq_right h.le]
      exact min_le_right _ _
  · rw [if_neg (by rw [h]; exact lt_irrefl _), if_neg (by rw [h]; exact lt_irrefl _)]
    simp only []
    exact ⟨min_le_left _ _, le_max_left _ _⟩
  · rw [if_neg (by linarith), if_pos h]
    simp only []
    constructor
    · rw [min_eq_right h.le]
      exact le_max_right _ _
    · rw [max_eq_left h.le]
      exact max_le (by linarith) h.le

theorem shipIter_target (C : Consts) (sh : Ship) (n : ℕ) :
    ((shipAnimate C)^[n] sh).target_x = sh.target_x := by
  induction n with
  | zero => rfl
  | succ n ih => rw [Function.iterate_succ_apply', shipAnimate_target_x, ih]

theorem shipIter_dist (C : Consts) (hs : 0 ≤ C.SHIP_SPEED) (sh : Ship) (n : ℕ) :
    |((shipAnimate C)^[n] sh).x - sh.target_x| =
      max (|sh.x - sh.target_x| - n * C.SHIP_SPEED) 0 := by
  induction n with
  | zero =>
    simp only [Function.iterate_zero_apply, Nat.cast_zero, zero_mul, sub_zero]
    exact (max_eq_left (abs_nonneg _)).symm
  | succ n ih =>
    have hd := shipAnimate_dist C hs ((shipAnimate C)^[n] sh)
    rw [shipIter_target] at hd
    rw [Function.iterate_succ_apply', hd, ih]
    rcases le_total (|sh.x - sh.target_x| - n * C.SHIP_SPEED) 0 with hc | hc
    · rw [max_eq_right hc, zero_sub, max_eq_right (by linarith),
        max_eq_right (by push_cast; linarith)]
    · rw [max_eq_left hc]
      congr 1
      push_cast
      ring

theorem shipIter_reaches (C : Consts) (hs : 0 < C.SHIP_SPEED) (sh : Ship) :
    ∃ n : ℕ, ((shipAnimate C)^[n] sh).x = sh.target_x := by
  refine ⟨⌈|sh.x - sh.target_x| / C.SHIP_SPEED⌉₊, ?_⟩
  have h1 := shipIter_dist C hs.le sh ⌈|sh.x - sh.target_x| / C.SHIP_SPEED⌉₊
  have h2 : |sh.x - sh.target_x| / C.SHIP_SPEED ≤
      ((⌈|sh.x - sh.target_x| / C.SHIP_SPEED⌉₊ : ℕ) : ℚ) := Nat.le_ceil _
  rw [div_le_iff₀ hs] at h2
  rw [max_eq_right (by linarith)] at h1
  exact sub_eq_zero.mp (abs_eq_zero.mp h1)

/-! ## Passes in which no entity removes itself -/

theorem explosionsPass_no_removal {exs : List Explosion}
    (h : ∀ e ∈ exs, e.frame + 1 < e.max_frames) :
    explosionsPass exs = exs.map fun e => { e with frame := e.frame + 1 } := by
  induction exs with
  | nil => rfl
  | cons e rest ih =>
    have he := h e (List.mem_cons_self _ _)
    rw [explosionsPass.eq_def]
    simp only [if_neg (show ¬e.max_frames ≤ e.frame + 1 by omega),
      ih fun e' he' => h e' (List.mem_cons_of_mem _ he'), List.map_cons]

theorem bulletsPass_no_removal {C : Consts} {bs : List Bullet} {en : List Enemy}
    {ex : List Explosion}
    (h : ∀ b ∈ bs, findHitIdx { b with y := b.y - C.BULLET_SPEED } en = none ∧
      ¬(b.y - C.BULLET_SPEED < -10)) :
    bulletsPass C bs en ex =
      Except.ok (bs.map fun b => { b with y := b.y - C.BULLET_SPEED }, en, ex) := by
  induction bs with
  | nil => rw [bulletsPass]; rfl
  | cons b rest ih =>
    obtain ⟨hf, hoff⟩ := h b (List.mem_cons_self _ _)
    have hba : bulletAnimate C b en ex =
        Except.ok (some { b with y := b.y - C.BULLET_SPEED }, en, ex) := by
      unfold bulletAnimate
      simp only [hf, if_neg hoff]
    simp only [bulletsPass, hba, ih fun b' hb' => h b' (List.mem_cons_of_mem _ hb'),
      List.map_cons]

theorem posSub_nil {en' : List Enemy} (h : PosSub en' []) : en' = [] := by
  cases en' with
  | nil => rfl
  | cons e rest =>
    obtain ⟨e0, he0, -, -, -⟩ := h e (List.mem_cons_self _ _)
    simp at he0

/-- Every public operation only removes enemies or lowers their health,
never moves, adds, or heals them. -/
theorem gstep_posSub {C : Consts} {s s' : GameState} (h : GStep C s s')
    (hE : EnemyInv s.enemies) : PosSub s'.enemies s.enemies := by
  cases h with
  | shoot => exact posSub_refl _
  | moveTo x => exact posSub_refl _
  | animate rng s' h =>
    obtain ⟨bs', en', ex', hbp, rfl⟩ := gameStateAnimate_ok_elim h
    exact (bulletsPass_ok_enemies hbp hE).2

/-! ## Claim theorems -/

/-- C10: immediately after construction `can_take_action()` is true: the
ship starts with `x = 25` equal to its target column and with
`shoot_cooldown = 0`, so `is_moving()` is false and `can_shoot()` is true,
whatever the star list and input grid. -/
theorem canTakeAction_after_init (stars : List Star) (weeks : List (List ℤ)) :
    gameStateCanTakeAction (gameStateInit stars weeks) = true ∧
    (gameStateInit stars weeks).ship.x = 25 ∧
    (gameStateInit stars weeks).ship.target_x = 25 ∧
    (gameStateInit stars weeks).ship.shoot_cooldown = 0 ∧
    shipIsMoving (gameStateInit stars weeks).ship = false ∧
    shipCanShoot (gameStateInit stars weeks).ship = true := by
  refine ⟨?_, rfl, rfl, rfl, ?_, rfl⟩
  · simp [gameStateCanTakeAction, shipIsMoving, shipCanShoot, gameStateInit]
  · simp [shipIsMoving, gameStateInit]

/-- C9: immediately after construction the enemy collection has exactly one
enemy per grid cell with positive intensity: the count equals the number of
positive cells, every enemy comes from a positive cell at its own
`(column, row)` with health equal to that cell's intensity, and every
positive cell yields its enemy. -/
theorem initial_targets_match_grid (stars : List Star) (weeks : List (List ℤ)) :
    ((gameStateInit stars weeks).enemies.length =
      (weeks.map fun w => w.countP fun l => decide (0 < l)).sum) ∧
    (∀ e ∈ (gameStateInit stars weeks).enemies,
      ∃ (wi di : ℕ) (w : List ℤ), weeks[wi]? = some w ∧ w[di]? = some e.health ∧
        0 < e.health ∧ e.x = (wi : ℤ) ∧ e.y = (di : ℤ)) ∧
    (∀ (wi di : ℕ) (w : List ℤ) (l : ℤ), weeks[wi]? = some w → w[di]? = some l → 0 < l →
      ({ x := (wi : ℤ), y := (di : ℤ), health := l } : Enemy) ∈
        (gameStateInit stars weeks).enemies) := by
  refine ⟨initEnemiesAux_length 0 weeks, ?_, ?_⟩
  · intro e he
    rw [show (gameStateInit stars weeks).enemies = initEnemies weeks from rfl,
      initEnemies_mem] at he
    obtain ⟨wi, di, w, l, hwi, hdi, hl, rfl⟩ := he
    exact ⟨wi, di, w, hwi, hdi, hl, rfl, rfl⟩
  · intro wi di w l hwi hdi hl
    rw [show (gameStateInit stars weeks).enemies = initEnemies weeks from rfl,
      initEnemies_mem]
    exact ⟨wi, di, w, l, hwi, hdi, hl, rfl⟩

/-- Witness for C9 at a concrete grid: column 1, row 0 carries intensity 3
and yields exactly that enemy. -/
theorem initial_targets_match_grid_witness :
    ({ x := 1, y := 0, health := 3 } : Enemy) ∈
      (gameStateInit [] [[0, 0, 0, 0, 0, 0, 0], [3, 0, 0, 0, 0, 0, 0]]).enemies := by
  have h := (initial_targets_match_grid [] [[0, 0, 0, 0, 0, 0, 0], [3, 0, 0, 0, 0, 0, 0]]).2.2
    1 0 [3, 0, 0, 0, 0, 0, 0] 3 (by decide) (by decide) (by decide)
  exact_mod_cast h

/-- C7: `is_complete()` is true exactly when the enemy collection is empty;
once true it stays true under every further public operation; and for an
all-zero input grid it is true immediately after construction, before any
animate step. -/
theorem isComplete_iff_empty_monotone (C : Consts) :
    (∀ s : GameState, gameStateIsComplete s = true ↔ s.enemies = []) ∧
    (∀ s s' : GameState, GStep C s s' → gameStateIsComplete s = true →
      gameStateIsComplete s' = true) ∧
    (∀ (stars : List Star) (weeks : List (List ℤ)), (∀ w ∈ weeks, ∀ l ∈ w, l ≤ 0) →
      gameStateIsComplete (gameStateInit stars weeks) = true) := by
  have hiff : ∀ s : GameState, gameStateIsComplete s = true ↔ s.enemies = [] := by
    intro s
    simp [gameStateIsComplete, List.length_eq_zero]
  refine ⟨hiff, ?_, ?_⟩
  · intro s s' hstep hc
    rw [hiff] at hc
    rw [hiff]
    have hsub := gstep_posSub hstep (by rw [hc]; intro e he; simp at he)
    rw [hc] at hsub
    exact posSub_nil hsub
  · intro stars weeks hz
    rw [hiff]
    show initEnemies weeks = []
    rw [List.eq_nil_iff_forall_not_mem]
    intro e he
    rw [initEnemies_mem] at he
    obtain ⟨wi, di, w, l, hwi, hdi, hl, -⟩ := he
    have := hz w (List.getElem?_mem hwi) l (List.getElem?_mem hdi)
    omega

/-- Witness for C7: the all-zero seven-day week grid is complete at
construction, and stays complete after a shoot command. -/
theorem isComplete_iff_empty_monotone_witness :
    gameStateIsComplete (gameStateInit [] [[0, 0, 0, 0, 0, 0, 0]]) = true ∧
    gameStateIsComplete (gameStateShoot C0 (gameStateInit [] [[0, 0, 0, 0, 0, 0, 0]])) = true := by
  have h := isComplete_iff_empty_monotone C0
  have h0 := h.2.2 [] [[0, 0, 0, 0, 0, 0, 0]] (by decide)
  exact ⟨h0, h.2.1 _ _ (GStep.shoot _) h0⟩

/-- C5: in every reachable state all enemies have positive health (health
is never negative, and an enemy that is present always has health above
zero); across every further public operation each surviving enemy is one of
the previous enemies with health unchanged or lowered (health is
non-increasing); and `take_damage` on an enemy present at index `i`
decrements its health by exactly 1, erasing it in the same step exactly
when the health reaches 0. -/
theorem enemy_health_invariant (C : Consts) {s : GameState} (hs : Reachable C s) :
    (∀ e ∈ s.enemies, 0 < e.health) ∧
    (∀ s' : GameState, GStep C s s' → ∀ e' ∈ s'.enemies, ∃ e ∈ s.enemies,
      e'.x = e.x ∧ e'.y = e.y ∧ e'.health ≤ e.health) ∧
    (∀ (i : ℕ) (e : Enemy), s.enemies[i]? = some e →
      (enemyTakeDamage s.enemies s.explosions i).1 =
        (if e.health = 1 then s.enemies.eraseIdx i
         else s.enemies.set i { e with health := e.health - 1 })) := by
  have hE := reachable_enemyInv hs
  refine ⟨fun e he => by have := (hE e he).2; omega, ?_, ?_⟩
  · intro s' hstep
    exact gstep_posSub hstep hE
  · intro i e hei
    have h1 : 1 ≤ e.health := (hE e (List.getElem?_mem hei)).2
    unfold enemyTakeDamage
    simp only [hei]
    by_cases h : e.health = 1
    · rw [if_pos h, if_pos (show e.health - 1 ≤ 0 by omega)]
    · rw [if_neg h, if_neg (show ¬e.health - 1 ≤ 0 by omega)]

/-- Witness for C5 at the reachable state constructed from a single
intensity-2 cell: damaging the enemy at index 0 lowers its health from 2
to exactly 1 and keeps it in the collection. -/
theorem enemy_health_invariant_witness :
    (enemyTakeDamage (gameStateInit [] [[2, 0, 0, 0, 0, 0, 0]]).enemies
      (gameStateInit [] [[2, 0, 0, 0, 0, 0, 0]]).explosions 0).1 =
      [{ x := 0, y := 0, health := 1 }] := by
  have h := (enemy_health_invariant C0 (Reachable.init [] [[2, 0, 0, 0, 0, 0, 0]])).2.2 0
    { x := 0, y := 0, health := 2 } (by decide)
  rw [h]
  decide

/-- C6: in every reachable state, a full animate pass never attempts to
remove a bullet twice (the hit branch and the off-screen branch of
`Bullet.animate` never both fire, which in Python would raise `ValueError`
from the second `list.remove`; in the embedding this is the `Except.error`
outcome, so the pass always returns `Except.ok`), and every bullet that
survives the pass has not crossed the exit threshold, `-10 ≤ y` (a bullet
that hits or crosses is dropped within that same step by construction of
the branches).  The bounds `7 ≤ SHIP_POSITION_Y` (avatar row below the
7-row grid) and `BULLET_SPEED ≤ 10` reflect the spec's geometry; the
concrete constants module is absent from the provided sources. -/
theorem bullet_removed_exactly_once (C : Consts) (hC : 7 ≤ C.SHIP_POSITION_Y)
    (hB : C.BULLET_SPEED ≤ 10) {s : GameState} (hs : Reachable C s) (rng : List ℚ) :
    ∃ s', gameStateAnimate C rng s = Except.ok s' ∧ ∀ b ∈ s'.bullets, -10 ≤ b.y := by
  obtain ⟨hE, hbs⟩ := reachable_stateInv hC hB hs
  obtain ⟨bs', en', ex', hbp, hE', hsub, hbs'⟩ :=
    bulletsPass_total hB s.bullets s.enemies s.explosions hE hbs
  refine ⟨{ starfield := (starfieldPass C rng s.starfield).1, ship := shipAnimate C s.ship,
            enemies := en', bullets := bs', explosions := explosionsPass ex' }, ?_, ?_⟩
  · unfold gameStateAnimate
    simp only [hbp]
  · intro b hb
    exact (hbs' b hb).1

/-- Witness for C6 at the reachable state with one freshly fired bullet
over the enemy at (25, 6). -/
theorem bullet_removed_exactly_once_witness :
    ∃ s', gameStateAnimate C0 [] (gameStateShoot C0 (gameStateInit [] weeksA)) =
      Except.ok s' ∧ ∀ b ∈ s'.bullets, -10 ≤ b.y :=
  bullet_removed_exactly_once C0 (by decide) (by norm_num [C0])
    (Reachable.step (Reachable.init [] weeksA) (GStep.shoot _)) []

/-- C8: the ship produced by a successful animate frame is exactly
`shipAnimate` of the previous ship; with no intervening `move_to` the
target column never changes, the distance to the target is non-increasing
from step to step, the position always stays between its starting position
and the target (no overshoot), and after finitely many steps the position
is exactly the target column.  Positivity of `SHIP_SPEED` reflects the
spec's fixed step speed toward the target; the concrete constants module
is absent from the provided sources. -/
theorem ship_approach_monotone (C : Consts) (hs : 0 < C.SHIP_SPEED) (sh : Ship) :
    (∀ (rng : List ℚ) (s s' : GameState), gameStateAnimate C rng s = Except.ok s' →
      s'.ship = shipAnimate C s.ship) ∧
    (∀ n : ℕ, ((shipAnimate C)^[n] sh).target_x = sh.target_x) ∧
    (∀ n : ℕ, |((shipAnimate C)^[n + 1] sh).x - sh.target_x| ≤
      |((shipAnimate C)^[n] sh).x - sh.target_x|) ∧
    (∀ n : ℕ, min sh.x sh.target_x ≤ ((shipAnimate C)^[n] sh).x ∧
      ((shipAnimate C)^[n] sh).x ≤ max sh.x sh.target_x) ∧
    (∃ n : ℕ, ((shipAnimate C)^[n] sh).x = sh.target_x) := by
  refine ⟨?_, shipIter_target C sh, ?_, ?_, shipIter_reaches C hs sh⟩
  · intro rng s s' h
    obtain ⟨bs', en', ex', -, rfl⟩ := gameStateAnimate_ok_elim h
    rfl
  · intro n
    rw [shipIter_dist C hs.le sh n, shipIter_dist C hs.le sh (n + 1)]
    have hmul : (n : ℚ) * C.SHIP_SPEED ≤ ((n : ℚ) + 1) * C.SHIP_SPEED := by nlinarith
    refine max_le_max (sub_le_sub_left ?_ _) le_rfl
    push_cast
    exact hmul
  · intro n
    induction n with
    | zero => exact ⟨min_le_left _ _, le_max_left _ _⟩
    | succ n ih =>
      have hb := shipAnimate_between C hs.le ((shipAnimate C)^[n] sh)
      rw [shipIter_target] at hb
      rw [Function.iterate_succ_apply']
      exact ⟨le_trans (le_min ih.1 (min_le_right _ _)) hb.1,
        le_trans hb.2 (max_le ih.2 (le_max_right _ _))⟩

/-- Witness for C8: a ship at column 25 targeting column 30 reaches the
target exactly under the representative unit speed. -/
theorem ship_approach_monotone_witness :
    ∃ n : ℕ, ((shipAnimate C0)^[n] { x := 25, target_x := 30, shoot_cooldown := 0 }).x = 30 :=
  (ship_approach_monotone C0 (by norm_num [C0])
    { x := 25, target_x := 30, shoot_cooldown := 0 }).2.2.2.2

/-- C1 counterexample: along the reachable trace from the grid `weeksA`
(shoot, then seven animate frames), the hit at the first animate spawns a
small and a large explosion together; five frames later the small one
reaches its max age and removes itself from the list during the iteration,
so the large explosion — present at the start of that `animate()` call —
is skipped: afterwards it is still present with its frame counter
unchanged at 5, although `Explosion.animate` always increments the frame.
The deferred end-of-step sweep demanded by the claim (`specExplosionsPass`)
would instead produce the large explosion at frame 6. -/
theorem animate_skips_entity_after_removal_cex :
    gameStateInit [] weeksA = tInit ∧
    gameStateShoot C0 tInit = tShot ∧
    gameStateAnimate C0 [] tShot = Except.ok (tFrame 2 1) ∧
    gameStateAnimate C0 [] (tFrame 2 1) = Except.ok (tFrame 1 2) ∧
    gameStateAnimate C0 [] (tFrame 1 2) = Except.ok (tFrame 0 3) ∧
    gameStateAnimate C0 [] (tFrame 0 3) = Except.ok (tFrame 0 4) ∧
    gameStateAnimate C0 [] (tFrame 0 4) = Except.ok (tFrame 0 5) ∧
    gameStateAnimate C0 [] (tFrame 0 5) = Except.ok (mkT 0 [] [] [exL 5]) ∧
    specExplosionsPass (tFrame 0 5).explosions = [exL 6] ∧
    ([exL 5] : List Explosion) ≠ [exL 6] := by
  refine ⟨?_, ?_, ?_, ?_, ?_, ?_, ?_, ?_, ?_, ?_⟩
  · with_unfolding_all rfl
  · with_unfolding_all rfl
  · with_unfolding_all rfl
  · with_unfolding_all rfl
  · with_unfolding_all rfl
  · with_unfolding_all rfl
  · with_unfolding_all rfl
  · with_unfolding_all rfl
  · with_unfolding_all rfl
  · with_unfolding_all decide

/-- C1 amended: entities do mutate the shared collections directly while
they are iterated (a self-removal makes the element sliding into the freed
slot be skipped for that pass, as the counterexample shows); but whenever
no entity removes itself during the pass — no explosion reaching its max
age, no bullet hitting or crossing the exit threshold — every entity
present at the start of `animate()` is animated exactly once and nothing
is removed or spawned, and on the explosion collection this agrees with
the spec's deferred end-of-step sweep. -/
theorem animate_uniform_when_no_removal (C : Consts) (rng : List ℚ) (s : GameState)
    (hex : ∀ e ∈ s.explosions, e.frame + 1 < e.max_frames)
    (hbul : ∀ b ∈ s.bullets, findHitIdx { b with y := b.y - C.BULLET_SPEED } s.enemies = none ∧
      ¬(b.y - C.BULLET_SPEED < -10)) :
    gameStateAnimate C rng s = Except.ok
      { starfield := (starfieldPass C rng s.starfield).1,
        ship := shipAnimate C s.ship,
        enemies := s.enemies,
        bullets := s.bullets.map fun b => { b with y := b.y - C.BULLET_SPEED },
        explosions := s.explosions.map fun e => { e with frame := e.frame + 1 } } ∧
    specExplosionsPass s.explosions =
      s.explosions.map fun e => { e with frame := e.frame + 1 } := by
  constructor
  · unfold gameStateAnimate
    simp only [bulletsPass_no_removal hbul, explosionsPass_no_removal hex]
  · unfold specExplosionsPass
    rw [List.filter_eq_self]
    intro e' he'
    rw [List.mem_map] at he'
    obtain ⟨e, he, rfl⟩ := he'
    simpa using hex e he

/-- Witness for the amended C1 on the concrete no-removal state `tQuiet`. -/
theorem animate_uniform_when_no_removal_witness :
    gameStateAnimate C0 [] tQuiet = Except.ok
      { starfield := [], ship := { x := 25, target_x := 25, shoot_cooldown := 0 },
        enemies := [{ x := 3, y := 0, health := 1 }], bullets := [{ x := 25, y := 6 }],
        explosions := [exS 2] } := by
  have h := (animate_uniform_when_no_removal C0 [] tQuiet (by decide)
    (by with_unfolding_all decide)).1
  rw [h]
  with_unfolding_all rfl

/-- C2 counterexample: an invalid command is executed, not rejected.  With
cooldown 5 (greater than 0) a shoot command still appends a bullet and
resets the cooldown, and a move command to column -5 (outside
[0, max-column]) still sets the target column to -5; no error of any kind
interrupts either operation (the embedded operations are total, as the
source methods contain no validation or raise). -/
theorem invalid_commands_execute_cex :
    (0 : ℤ) < (mkT 5 [] [] []).ship.shoot_cooldown ∧
    (gameStateShoot C0 (mkT 5 [] [] [])).bullets = [{ x := 25, y := 7 }] ∧
    (gameStateShoot C0 (mkT 5 [] [] [])).ship.shoot_cooldown = 3 ∧
    (gameStateMoveTo (mkT 5 [] [] []) (-5)).ship.target_x = -5 := by
  refine ⟨by decide, ?_, by with_unfolding_all rfl, ?_⟩
  · with_unfolding_all rfl
  · with_unfolding_all rfl

/-- C2 amended: policy commands are never validated: `move_to` sets the
target column unconditionally (also for columns outside [0, max-column])
leaving everything else unchanged, and `shoot` always appends exactly one
bullet and resets the cooldown (also while the cooldown is positive); no
Invalid-Command error exists in the simulation. -/
theorem commands_always_execute (C : Consts) (s : GameState) (x : ℤ) :
    ((gameStateMoveTo s x).ship.target_x = (x : ℚ) ∧
     (gameStateMoveTo s x).ship.x = s.ship.x ∧
     (gameStateMoveTo s x).enemies = s.enemies ∧
     (gameStateMoveTo s x).bullets = s.bullets) ∧
    ((gameStateShoot C s).bullets =
       s.bullets ++ [{ x := pyInt s.ship.x, y := (C.SHIP_POSITION_Y : ℚ) - 1 }] ∧
     (gameStateShoot C s).ship.shoot_cooldown = C.SHIP_SHOOT_COOLDOWN_FRAMES) :=
  ⟨⟨rfl, rfl, rfl, rfl⟩, rfl, rfl⟩

/-- C3 counterexample: constructing the state from a grid with an
out-of-range intensity raises nothing — for intensity 5 a full simulation
state is created containing an enemy with health 5, and a negative
intensity is silently skipped like zero, also without any error. -/
theorem invalid_intensity_not_rejected_cex :
    (gameStateInit [] [[5, 0, 0, 0, 0, 0, 0]]).enemies = [{ x := 0, y := 0, health := 5 }] ∧
    (gameStateInit [] [[-1, 0, 0, 0, 0, 0, 0]]).enemies = [] ∧
    (gameStateInit [] [[5, 0, 0, 0, 0, 0, 0]]).ship = { x := 25, target_x := 25, shoot_cooldown := 0 } := by
  refine ⟨by decide, by decide, ?_⟩
  with_unfolding_all rfl

/-- C3 amended: intensities are never range-checked: a cell with intensity
at most 0 (including negative) simply produces no enemy at its position,
and every cell with positive intensity — with no upper bound — produces an
enemy with that intensity as health; construction always succeeds. -/
theorem invalid_intensity_behavior (stars : List Star) (weeks : List (List ℤ))
    (wi di : ℕ) (w : List ℤ) (l : ℤ) (hwi : weeks[wi]? = some w) (hdi : w[di]? = some l) :
    (l ≤ 0 → ∀ e ∈ (gameStateInit stars weeks).enemies,
      ¬(e.x = (wi : ℤ) ∧ e.y = (di : ℤ))) ∧
    (0 < l → ({ x := (wi : ℤ), y := (di : ℤ), health := l } : Enemy) ∈
      (gameStateInit stars weeks).enemies) := by
  constructor
  · rintro hl e he ⟨hex, hey⟩
    rw [show (gameStateInit stars weeks).enemies = initEnemies weeks from rfl,
      initEnemies_mem] at he
    obtain ⟨wi', di', w', l', hwi', hdi', hl', rfl⟩ := he
    obtain rfl : wi' = wi := by
      have : ((wi' : ℤ)) = (wi : ℤ) := hex
      exact_mod_cast this
    obtain rfl : di' = di := by
      have : ((di' : ℤ)) = (di : ℤ) := hey
      exact_mod_cast this
    rw [hwi'] at hwi
    obtain rfl : w' = w := by simpa using hwi
    rw [hdi'] at hdi
    obtain rfl : l' = l := by simpa using hdi
    omega
  · intro hl
    rw [show (gameStateInit stars weeks).enemies = initEnemies weeks from rfl,
      initEnemies_mem]
    exact ⟨wi, di, w, l, hwi, hdi, hl, rfl⟩

/-- Witness for the amended C3: in a week starting with intensities -1 and
5, the negative cell yields no enemy while the out-of-range cell 5 yields
an enemy with health 5. -/
theorem invalid_intensity_behavior_witness :
    ({ x := 0, y := 1, health := 5 } : Enemy) ∈
      (gameStateInit [] [[-1, 5, 0, 0, 0, 0, 0]]).enemies := by
  have h := (invalid_intensity_behavior [] [[-1, 5, 0, 0, 0, 0, 0]] 0 1
    [-1, 5, 0, 0, 0, 0, 0] 5 (by decide) (by decide)).2 (by decide)
  exact_mod_cast h

/-- C4 counterexample: shooting from the fractional ship position 3.7
creates the bullet at column `int(3.7) = 3` (truncation toward zero), not
at the rounded nearest integer 4 asserted by the claim. -/
theorem shoot_truncates_not_rounds_cex :
    (gameStateShoot C0 shipCex).bullets = [{ x := 3, y := 7 }] ∧
    round ((37 : ℚ) / 10) = 4 ∧ ((3 : ℤ) ≠ 4) := by
  refine ⟨?_, by norm_num [round_eq], by decide⟩
  with_unfolding_all rfl

/-- C4 amended: for every ship position `x`, `shoot` creates exactly one
projectile, at the column `int(x)` (truncation toward zero, which differs
from rounding to the nearest integer, see the counterexample), at the
fixed vertical position one row above the ship row, and resets the
cooldown to the fixed frame count. -/
theorem shoot_creates_truncated_bullet (C : Consts) (s : GameState) :
    (gameStateShoot C s).bullets =
      s.bullets ++ [{ x := pyInt s.ship.x, y := (C.SHIP_POSITION_Y : ℚ) - 1 }] ∧
    (gameStateShoot C s).bullets.length = s.bullets.length + 1 ∧
    (gameStateShoot C s).ship.shoot_cooldown = C.SHIP_SHOOT_COOLDOWN_FRAMES ∧
    (gameStateShoot C s).ship.x = s.ship.x ∧
    (gameStateShoot C s).enemies = s.enemies ∧
    (gameStateShoot C s).explosions = s.explosions := by
  refine ⟨rfl, ?_, rfl, rfl, rfl, rfl⟩
  simp [gameStateShoot]

end GhSpaceShooter
